import Mathlib

/-!
Verification of the ts-data-schema runtime validation core.

This file shallowly embeds the schema/validation runtime of the repository
(src/schema.ts and the or-combinator module) into Lean:

* JavaScript runtime values are modelled by the mutual inductive family
  Value / ValueList / PropList (arrays carry ordered element lists, plain
  objects carry ordered key-value pair lists; property keys are strings).
  JavaScript strict (in)equality on values is modelled by structural
  (in)equality of Value.
* Validation results are modelled by VResult (success with a value, or
  failure with a message and a path of property-key/index accessors),
  matching the Result / ValidateError shape of the source.
* Schemas are modelled by the inductive Schema, one constructor per schema
  kind of the source; optional(schema) inside an object property map is
  modelled by a Bool flag on the property entry.  Caller-supplied converter
  functions are modelled as functions into Except Thrown Value, where
  Thrown models a JavaScript thrown exception (an Error object with a
  message, or any other value represented by its String() form).
* validate implements, case by case, the validate functions of the source:
  the leaf schemas, objectFunction (guard, required pass, optional pass,
  copy-on-write change tracking via object spread), Array_ (guard, indexed
  element loop, copy-on-write via toSpliced), or (first-success loop with
  error-message aggregation), convert (try/catch) and predicate.
-/

mutual
inductive Value where
  | bool (b : Bool)
  | num (n : Int)
  | bigint (n : Int)
  | str (s : String)
  | sym (id : Nat)
  | null
  | undefined
  | arr (elems : ValueList)
  | obj (props : PropList)
inductive ValueList where
  | nil
  | cons (head : Value) (tail : ValueList)
inductive PropList where
  | nil
  | cons (key : String) (val : Value) (tail : PropList)
end

deriving instance DecidableEq for Value, ValueList, PropList

/-- Number of elements of a ValueList (JavaScript array length). -/
def ValueList.length : ValueList → Nat
  | .nil => 0
  | .cons _ t => t.length + 1

/-- Element at an index, if in bounds. -/
def ValueList.get? : ValueList → Nat → Option Value
  | .nil, _ => none
  | .cons x _, 0 => some x
  | .cons _ t, n + 1 => t.get? n

/-- Replace the element at an index, out-of-bounds indices leave the list
unchanged; models a single-element splice at an in-bounds index. -/
def ValueList.set : ValueList → Nat → Value → ValueList
  | .nil, _, _ => .nil
  | .cons _ t, 0, y => .cons y t
  | .cons x t, n + 1, y => .cons x (t.set n y)

/-- List concatenation on ValueList (used only in proofs). -/
def ValueList.append : ValueList → ValueList → ValueList
  | .nil, ys => ys
  | .cons x t, ys => .cons x (t.append ys)

/-- First value bound to a key, if any (JavaScript property lookup on a
plain object). -/
def PropList.lookup : PropList → String → Option Value
  | .nil, _ => none
  | .cons k v t, key => if k = key then some v else t.lookup key

/-- Whether a key occurs in the list. -/
def PropList.hasKey : PropList → String → Bool
  | .nil, _ => false
  | .cons k _ t, key => k = key || t.hasKey key

/-- Overwrite the value at the first occurrence of a key, keeping its
position, or append the binding at the end if the key is absent: the
behaviour of a JavaScript object-spread update. -/
def PropList.setFirst : PropList → String → Value → PropList
  | .nil, key, x => .cons key x .nil
  | .cons k v t, key, x => if k = key then .cons k x t else .cons k v (t.setFirst key x)

/-- The JavaScript typeof operator restricted to the modelled values. -/
def typeofValue : Value → String
  | .bool _ => "boolean"
  | .num _ => "number"
  | .bigint _ => "bigint"
  | .str _ => "string"
  | .sym _ => "symbol"
  | .null => "object"
  | .undefined => "undefined"
  | .arr _ => "object"
  | .obj _ => "object"

/-- The enumerable own properties of an array value, as index-keyed
bindings: what an object spread of an array produces. -/
def ValueList.indexProps : ValueList → Nat → PropList
  | .nil, _ => .nil
  | .cons x t, i => .cons (Nat.repr i) x (t.indexProps (i + 1))

/-- The enumerable own properties a value contributes under object spread. -/
def spreadProps : Value → PropList
  | .obj l => l
  | .arr xs => xs.indexProps 0
  | _ => .nil

/-- The JavaScript in-operator on the modelled object-typed values: a key is
present in a plain object when bound, and in an array when it is the
canonical decimal form of an in-bounds index or the string length. -/
def hasKey : Value → String → Bool
  | .obj l, key => l.hasKey key
  | .arr xs, key =>
      key = "length" ||
        (match key.toNat? with
          | some i => decide (Nat.repr i = key) && decide (i < xs.length)
          | none => false)
  | _, _ => false

/-- JavaScript property read value[key] on the modelled values; absent keys
read as undefined. -/
def getKey : Value → String → Value
  | .obj l, key => (l.lookup key).getD .undefined
  | .arr xs, key =>
      if key = "length" then .num xs.length
      else
        match key.toNat? with
        | some i => (xs.get? i).getD .undefined
        | none => .undefined
  | _, _ => .undefined

/-- The object-spread update used by objectFunction to build the changed
aggregate: a new plain object holding the spread of the current aggregate
with one key overwritten. -/
def setKey (v : Value) (key : String) (x : Value) : Value :=
  .obj ((spreadProps v).setFirst key x)

/-- A path segment of a ValidateError: a property key or an array index. -/
inductive PathKey where
  | str (s : String)
  | idx (n : Nat)

deriving instance DecidableEq for PathKey

/-- The Result of a validation: success with the (possibly converted) value,
or failure with a ValidateError carrying a message and a path. -/
inductive VResult where
  | success (value : Value)
  | failure (message : String) (path : List PathKey)

deriving instance DecidableEq for VResult

/-- Whether a result is a failure. -/
def VResult.isFailure : VResult → Bool
  | .success _ => false
  | .failure _ _ => true

/-- A thrown JavaScript exception as observed by the convert combinator: an
Error instance carrying its message, or any other thrown value represented
by its String() form. -/
inductive Thrown where
  | errorObj (message : String)
  | other (stringForm : String)

/-- The message the convert combinator extracts from a thrown exception:
e.message for an Error instance, String(e) otherwise. -/
def thrownMessage : Thrown → String
  | .errorObj m => m
  | .other s => s

/-- Schemas, one constructor per kind of the source.  A property entry of a
properties schema is (key, isOptional, child schema): optional(s) in the
source property map is the entry flagged true. -/
inductive Schema where
  | boolean
  | number
  | bigint
  | string
  | symbol
  | unknown
  | any
  | never
  | object
  | properties (props : List (String × Bool × Schema))
  | Array_ (element : Schema)
  | or (schemas : List Schema)
  | convert (converter : Value → Except Thrown Value)
  | predicate (f : Value → Bool) (fname ftext : String)

/-- The failure message of the predicate combinator: it embeds the test
function's name when nonempty and the function's textual form. -/
def predMessage (fname ftext : String) : String :=
  if fname ≠ "" then s!"predicate {fname} not met: {ftext}"
  else s!"predicate not met: {ftext}"

/-- The aggregated failure message of the or combinator: the fixed prefix
followed by the child failure messages numbered in trial order. -/
def orMessage (msgs : List String) : String :=
  "must resolve any one of the following issues: " ++
    String.intercalate " " (msgs.mapIdx fun i m => s!"({i + 1}) {m}")

mutual

/-- validate of each schema kind, following the source case by case. -/
def validate : Schema → Value → VResult
  | .boolean, v =>
      if typeofValue v = "boolean" then .success v else .failure "not a boolean" []
  | .number, v =>
      if typeofValue v = "number" then .success v else .failure "not a number" []
  | .bigint, v =>
      if typeofValue v = "bigint" then .success v else .failure "not a bigint" []
  | .string, v =>
      if typeofValue v = "string" then .success v else .failure "not a string" []
  | .symbol, v =>
      if typeofValue v = "symbol" then .success v else .failure "not a symbol" []
  | .unknown, v => .success v
  | .any, v => .success v
  | .never, _ => .failure "never type does not accept any value" []
  | .object, v =>
      if typeofValue v = "object" ∧ v ≠ Value.null then .success v
      else .failure "not an object" []
  | .properties props, v =>
      if typeofValue v ≠ "object" ∨ v = Value.null then .failure "not an object" []
      else
        match validateRequired props v v with
        | .inl e => e
        | .inr cv =>
          match validateOptional props v cv with
          | .inl e => e
          | .inr cv2 => .success cv2
  | .Array_ elem, v =>
      match v with
      | .arr xs =>
        match validateElems elem xs 0 xs with
        | .inl e => e
        | .inr cv => .success (.arr cv)
      | _ => .failure "not an array" []
  | .or ss, v => validateOrGo ss v []
  | .convert f, v =>
      match f v with
      | .ok u => .success u
      | .error t => .failure (thrownMessage t) []
  | .predicate f fname ftext, v =>
      if f v then .success v else .failure (predMessage fname ftext) []
termination_by s _ => (sizeOf s, 0)

/-- The required-property pass of objectFunction: iterates the declared
entries in order, skipping optional ones; a missing key fails with the
fixed message and path of that key; a failing child has the key appended
to its error path; a changed child value updates the aggregate by object
spread.  Returns the failure or the current (possibly rebuilt) aggregate. -/
def validateRequired : List (String × Bool × Schema) → Value → Value → Sum VResult Value
  | [], _, cv => .inr cv
  | (key, opt, s) :: rest, v, cv =>
      if opt then validateRequired rest v cv
      else
        if hasKey v key then
          match validate s (getKey v key) with
          | .failure m p => .inl (.failure m (p ++ [PathKey.str key]))
          | .success rv =>
              validateRequired rest v (if rv = getKey v key then cv else setKey cv key rv)
        else .inl (.failure "missing required property" [PathKey.str key])
termination_by props _ _ => (sizeOf props, 0)

/-- The optional-property pass of objectFunction: iterates the declared
entries in order, skipping non-optional ones and absent keys; a failing
child has the key appended to its error path; a changed child value
updates the aggregate by object spread. -/
def validateOptional : List (String × Bool × Schema) → Value → Value → Sum VResult Value
  | [], _, cv => .inr cv
  | (key, opt, s) :: rest, v, cv =>
      if opt then
        if hasKey v key then
          match validate s (getKey v key) with
          | .failure m p => .inl (.failure m (p ++ [PathKey.str key]))
          | .success rv =>
              validateOptional rest v (if rv = getKey v key then cv else setKey cv key rv)
        else validateOptional rest v cv
      else validateOptional rest v cv
termination_by props _ _ => (sizeOf props, 0)

/-- The element loop of Array_.validate: validates each element in index
order; a failing element fails with the index prepended to its error path;
a changed element value updates the aggregate by a single-element splice. -/
def validateElems : Schema → ValueList → Nat → ValueList → Sum VResult ValueList
  | _, .nil, _, cv => .inr cv
  | elem, .cons x rest, i, cv =>
      match validate elem x with
      | .failure m p => .inl (.failure m (PathKey.idx i :: p))
      | .success rv => validateElems elem rest (i + 1) (if rv = x then cv else cv.set i rv)
termination_by elem todo _ _ => (sizeOf elem, sizeOf todo + 1)

/-- The loop of or.validate: tries each child in declared order, returns the
first success as-is, collects every failure message, and when all children
failed builds the single aggregated failure with an empty path. -/
def validateOrGo : List Schema → Value → List String → VResult
  | [], _, msgs => .failure (orMessage msgs) []
  | s :: rest, v, msgs =>
      match validate s v with
      | .success u => .success u
      | .failure m _ => validateOrGo rest v (msgs ++ [m])
termination_by ss _ _ => (sizeOf ss, 0)

end

/-- The or loop instrumented with the number of child validate calls it
performs: same control flow as validateOrGo, each schema.validate call in
the loop body counting one. -/
def validateOrCounted : List Schema → Value → List String → VResult × Nat
  | [], _, msgs => (.failure (orMessage msgs) [], 0)
  | s :: rest, v, msgs =>
      match validate s v with
      | .success u => (.success u, 1)
      | .failure m _ =>
          let r := validateOrCounted rest v (msgs ++ [m])
          (r.1, r.2 + 1)

/-- predicate.validate instrumented with the number of calls it makes to the
caller-supplied test function: callF is the counted entry to the test
function, and the source calls it once, in the if condition; the failure
message is built from the function's name and textual form only. -/
def predicateValidateCounted (f : Value → Bool) (fname ftext : String) (v : Value) :
    VResult × Nat :=
  let callF : Value → Bool × Nat := fun x => (f x, 1)
  let r := callF v
  (if r.1 then .success v else .failure (predMessage fname ftext) [], r.2)

/-- Pointwise successful validation of array elements: relates an element
list to the list of values the element schema returned for them. -/
inductive ElemsOk (elem : Schema) : ValueList → ValueList → Prop
  | nil : ElemsOk elem .nil .nil
  | cons {x y : Value} {tx ty : ValueList} :
      validate elem x = .success y → ElemsOk elem tx ty →
      ElemsOk elem (.cons x tx) (.cons y ty)

/-- C1: for object({a: Array_(number)}) validated against {a: [1, "x"]} the
claim expects failure path ["a", 1]; the code instead appends the property
key after the child path (while Array_ prepends the index), producing the
path [1, "a"].  This theorem evaluates the embedded code at that input. -/
theorem path_bug_object_appends_key :
    validate (.properties [("a", false, .Array_ .number)])
        (.obj (.cons "a" (.arr (.cons (.num 1) (.cons (.str "x") .nil))) .nil))
      = .failure "not a number" [PathKey.idx 1, PathKey.str "a"] := by
  simp [validate, validateRequired, validateElems, hasKey, getKey, typeofValue,
    PropList.hasKey, PropList.lookup, ValueList.get?, ValueList.length]

/-- The required pass skips any run of optional entries. -/
theorem validateRequired_skip_optional :
    ∀ (opts rest2 : List (String × Bool × Schema)) (v cv : Value),
      (∀ p ∈ opts, p.2.1 = true) →
      validateRequired (opts ++ rest2) v cv = validateRequired rest2 v cv := by
  intro opts
  induction opts with
  | nil =>
      intro rest2 v cv _
      simp
  | cons hd tl ih =>
      obtain ⟨k, opt, s⟩ := hd
      intro rest2 v cv hall
      have hopt : opt = true := hall (k, opt, s) (List.mem_cons_self _ _)
      subst hopt
      rw [List.cons_append]
      have hstep : validateRequired ((k, true, s) :: (tl ++ rest2)) v cv
          = validateRequired (tl ++ rest2) v cv := by
        simp [validateRequired]
      rw [hstep, ih rest2 v cv (fun p hp => hall p (List.mem_cons_of_mem _ hp))]

/-- C2: required keys are processed before any optional key: in a
properties schema declaring any number of optional keys before a required
key, a missing required key is reported (message "missing required
property", path [key]) even when an earlier declared optional key is
present in the input and its child fails. -/
theorem required_before_optional :
    ∀ (opts : List (String × Bool × Schema)) (kr : String) (s1 : Schema)
      (rest : List (String × Bool × Schema)) (v : Value),
      typeofValue v = "object" → v ≠ Value.null →
      (∀ p ∈ opts, p.2.1 = true) →
      hasKey v kr = false →
      (∃ p ∈ opts, hasKey v p.1 = true ∧ (validate p.2.2 (getKey v p.1)).isFailure = true) →
      validate (.properties (opts ++ (kr, false, s1) :: rest)) v
        = .failure "missing required property" [PathKey.str kr] := by
  intro opts kr s1 rest v hty hnull hopts hkr _hoptfail
  have h1 : validateRequired (opts ++ (kr, false, s1) :: rest) v v
      = .inl (.failure "missing required property" [PathKey.str kr]) := by
    rw [validateRequired_skip_optional opts ((kr, false, s1) :: rest) v v hopts]
    simp [validateRequired, hkr]
  simp [validate, hty, hnull, h1]

theorem required_before_optional_witness :
    validate (.properties [("a", true, .number), ("b", false, .number)])
        (.obj (.cons "a" (.str "x") .nil))
      = .failure "missing required property" [PathKey.str "b"] :=
  required_before_optional [("a", true, .number)] "b" .number []
    (.obj (.cons "a" (.str "x") .nil)) rfl (by decide)
    (by intro p hp; fin_cases hp; rfl) (by decide)
    ⟨("a", true, .number), List.mem_cons_self _ _, by decide,
      by simp [validate, getKey, PropList.lookup, typeofValue, VResult.isFailure]⟩

/-- C7: convert(fn) succeeds with fn's return value when fn returns
normally, and turns a thrown exception into a failure whose message is the
Error's message (or the thrown value's string form) with an empty path. -/
theorem convert_catches_throws :
    ∀ (f : Value → Except Thrown Value) (v : Value),
      (∀ u, f v = .ok u → validate (.convert f) v = .success u) ∧
        (∀ t, f v = .error t → validate (.convert f) v = .failure (thrownMessage t) []) := by
  intro f v
  constructor
  · intro u hu
    simp [validate, hu]
  · intro t ht
    simp [validate, ht]

theorem convert_catches_throws_witness :
    validate (.convert fun _ => .ok (.num 7)) (.num 0) = .success (.num 7) ∧
      validate (.convert fun _ => .error (.errorObj "boom")) (.num 0)
        = .failure "boom" [] :=
  ⟨(convert_catches_throws (fun _ => .ok (.num 7)) (.num 0)).1 (.num 7) rfl,
    (convert_catches_throws (fun _ => .error (.errorObj "boom")) (.num 0)).2
      (.errorObj "boom") rfl⟩

/-- C8: one predicate validation calls the test function exactly once, in
success and failure alike, and agrees with validate; the failure message is
built from the function's name and textual form without another call. -/
theorem predicate_called_once :
    ∀ (f : Value → Bool) (fname ftext : String) (v : Value),
      (predicateValidateCounted f fname ftext v).2 = 1 ∧
        (predicateValidateCounted f fname ftext v).1 = validate (.predicate f fname ftext) v := by
  intro f fname ftext v
  refine ⟨rfl, ?_⟩
  simp [predicateValidateCounted, validate]

/-- C9: the properties guard only rejects values that are not object-typed
or are null; an array is object-typed and not null, so it passes the guard,
and against object({}) any array validates successfully to itself. -/
theorem properties_accepts_arrays :
    ∀ xs : ValueList,
      ¬(typeofValue (.arr xs) ≠ "object" ∨ (Value.arr xs) = Value.null) ∧
        validate (.properties []) (.arr xs) = .success (.arr xs) := by
  intro xs
  constructor
  · simp [typeofValue]
  · simp [validate, validateRequired, validateOptional, typeofValue]

/-- C10: or with no child schemas fails on every input, with an empty path
and the aggregation prefix followed by no numbered issues. -/
theorem or_empty_always_fails :
    (∀ v : Value, validate (.or []) v = .failure (orMessage []) []) ∧
      orMessage [] = "must resolve any one of the following issues: " := by
  constructor
  · intro v
    simp [validate, validateOrGo]
  · rfl

/-- Success of a leaf-style if-guard returns exactly the guarded value. -/
theorem if_guard_success {c : Prop} [Decidable c] {v w : Value} {m : String} :
    (if c then VResult.success v else VResult.failure m []) = .success w → w = v := by
  split
  · intro h
    cases h
    rfl
  · intro h
    cases h

/-- C3: every non-converting leaf schema (boolean, number, bigint, string,
symbol, unknown, any, never, bare object) and every predicate schema
returns, on success, exactly the input value. -/
theorem nonconverting_identity :
    (∀ s : Schema,
        s ∈ ([.boolean, .number, .bigint, .string, .symbol, .unknown, .any, .never,
              .object] : List Schema) →
        ∀ v w : Value, validate s v = .success w → w = v) ∧
      (∀ (f : Value → Bool) (fname ftext : String) (v w : Value),
          validate (.predicate f fname ftext) v = .success w → w = v) := by
  constructor
  · intro s hs v w h
    fin_cases hs <;>
      simp only [validate] at h <;>
      first
        | exact if_guard_success h
        | (injection h with h2; exact h2.symm)
        | exact VResult.noConfusion h
  · intro f fname ftext v w h
    simp only [validate] at h
    exact if_guard_success h

theorem nonconverting_identity_witness :
    validate .boolean (.bool true) = .success (.bool true) ∧
      (Value.bool true) = (Value.bool true) :=
  ⟨by simp [validate, typeofValue],
    nonconverting_identity.1 .boolean (List.mem_cons_self _ _) (.bool true) (.bool true)
      (by simp [validate, typeofValue])⟩

/-- When every child in a prefix fails, the or loop skips it, so a
subsequent successful child's result is returned as-is. -/
theorem validateOrGo_skip :
    ∀ (pre : List Schema) (v : Value) (s : Schema) (post : List Schema)
      (acc : List String) (u : Value),
      (∀ t ∈ pre, (validate t v).isFailure = true) →
      validate s v = .success u →
      validateOrGo (pre ++ s :: post) v acc = .success u := by
  intro pre
  induction pre with
  | nil =>
      intro v s post acc u _ hs
      simp [validateOrGo, hs]
  | cons t tl ih =>
      intro v s post acc u hall hs
      have ht := hall t (List.mem_cons_self _ _)
      rcases hv : validate t v with u' | ⟨m, p⟩
      · rw [hv] at ht
        simp [VResult.isFailure] at ht
      · rw [List.cons_append]
        have hstep : validateOrGo (t :: (tl ++ s :: post)) v acc
            = validateOrGo (tl ++ s :: post) v (acc ++ [m]) := by
          simp [validateOrGo, hv]
        rw [hstep]
        exact ih v s post (acc ++ [m]) u
          (fun t' h' => hall t' (List.mem_cons_of_mem _ h')) hs

/-- The counted or loop validates exactly the failing prefix plus the first
succeeding child. -/
theorem validateOrCounted_skip :
    ∀ (pre : List Schema) (v : Value) (s : Schema) (post : List Schema)
      (acc : List String) (u : Value),
      (∀ t ∈ pre, (validate t v).isFailure = true) →
      validate s v = .success u →
      (validateOrCounted (pre ++ s :: post) v acc).2 = pre.length + 1 := by
  intro pre
  induction pre with
  | nil =>
      intro v s post acc u _ hs
      simp [validateOrCounted, hs]
  | cons t tl ih =>
      intro v s post acc u hall hs
      have ht := hall t (List.mem_cons_self _ _)
      rcases hv : validate t v with u' | ⟨m, p⟩
      · rw [hv] at ht
        simp [VResult.isFailure] at ht
      · rw [List.cons_append]
        have hstep : (validateOrCounted (t :: (tl ++ s :: post)) v acc).2
            = (validateOrCounted (tl ++ s :: post) v (acc ++ [m])).2 + 1 := by
          simp [validateOrCounted, hv]
        rw [hstep, ih v s post (acc ++ [m]) u
          (fun t' h' => hall t' (List.mem_cons_of_mem _ h')) hs]
        simp [List.length_cons]

/-- C5: or tries its children in declared order and returns the first
successful child result verbatim; the instrumented loop performs exactly
one validation per failing earlier child plus the succeeding one, so no
later child is validated once one child has succeeded. -/
theorem or_first_success_shortcircuit :
    ∀ (pre post : List Schema) (s : Schema) (v : Value),
      (∀ t ∈ pre, (validate t v).isFailure = true) →
      ∀ u : Value, validate s v = .success u →
      validate (.or (pre ++ s :: post)) v = validate s v ∧
        (validateOrCounted (pre ++ s :: post) v []).2 = pre.length + 1 := by
  intro pre post s v hall u hs
  constructor
  · have hgo : validate (.or (pre ++ s :: post)) v = validateOrGo (pre ++ s :: post) v [] := by
      simp [validate]
    rw [hgo, validateOrGo_skip pre v s post [] u hall hs, hs]
  · exact validateOrCounted_skip pre v s post [] u hall hs

theorem or_first_success_shortcircuit_witness :
    validate (.or [.number, .string]) (.str "a") = validate .string (.str "a") ∧
      (validateOrCounted [.number, .string] (.str "a") []).2 = 2 := by
  have h := or_first_success_shortcircuit [.number] [] .string (.str "a")
    (by
      intro t ht
      simp at ht
      subst ht
      simp [validate, typeofValue, VResult.isFailure])
    (.str "a") (by simp [validate, typeofValue])
  simpa using h

/-- When every child fails in turn, the or loop appends each message and
finally builds the aggregated failure. -/
theorem validateOrGo_all_fail :
    ∀ (ss : List Schema) (msgs : List String) (v : Value),
      List.Forall₂ (fun s m => ∃ p, validate s v = .failure m p) ss msgs →
      ∀ acc : List String,
        validateOrGo ss v acc = .failure (orMessage (acc ++ msgs)) [] := by
  intro ss msgs v h
  induction h with
  | nil =>
      intro acc
      simp [validateOrGo]
  | @cons x m tx tms hx hrest ih =>
      intro acc
      obtain ⟨p, hp⟩ := hx
      have hstep : validateOrGo (x :: tx) v acc = validateOrGo tx v (acc ++ [m]) := by
        simp [validateOrGo, hp]
      rw [hstep, ih]
      simp

/-- C6: when every child of an or schema fails, the result is one failure
with an empty path whose message numbers each child message in trial
order; in particular or(number, string) against true fails with the
message naming "not a number" as (1) and "not a string" as (2). -/
theorem or_aggregates_failure_messages :
    (∀ (ss : List Schema) (msgs : List String) (v : Value),
        List.Forall₂ (fun s m => ∃ p, validate s v = .failure m p) ss msgs →
        validate (.or ss) v = .failure (orMessage msgs) []) ∧
      validate (.or [.number, .string]) (.bool true)
        = .failure
            "must resolve any one of the following issues: (1) not a number (2) not a string"
            [] := by
  have hgen : ∀ (ss : List Schema) (msgs : List String) (v : Value),
      List.Forall₂ (fun s m => ∃ p, validate s v = .failure m p) ss msgs →
      validate (.or ss) v = .failure (orMessage msgs) [] := by
    intro ss msgs v h
    have hgo : validate (.or ss) v = validateOrGo ss v [] := by
      simp [validate]
    rw [hgo, validateOrGo_all_fail ss msgs v h []]
    simp
  constructor
  · exact hgen
  · rw [hgen [.number, .string] ["not a number", "not a string"] (.bool true)
      (List.Forall₂.cons ⟨[], by simp [validate, typeofValue]⟩
        (List.Forall₂.cons ⟨[], by simp [validate, typeofValue]⟩ List.Forall₂.nil))]
    rfl

theorem or_aggregates_failure_messages_witness :
    validate (.or [.boolean]) (.num 3) = .failure (orMessage ["not a boolean"]) [] :=
  or_aggregates_failure_messages.1 [.boolean] ["not a boolean"] (.num 3)
    (List.Forall₂.cons ⟨[], by simp [validate, typeofValue]⟩ List.Forall₂.nil)

/-- Appending an element then more elements equals appending the cons. -/
theorem ValueList.append_cons_nil : ∀ (pre : ValueList) (z : Value) (t : ValueList),
    (pre.append (.cons z .nil)).append t = pre.append (.cons z t)
  | .nil, _, _ => by simp [ValueList.append]
  | .cons a p, z, t => by simp [ValueList.append, ValueList.append_cons_nil p z t]

/-- Length of a list with one appended element. -/
theorem ValueList.length_append_singleton : ∀ (pre : ValueList) (z : Value),
    (pre.append (.cons z .nil)).length = pre.length + 1
  | .nil, _ => by simp [ValueList.append, ValueList.length]
  | .cons a p, z => by
      simp [ValueList.append, ValueList.length, ValueList.length_append_singleton p z]

/-- Splicing at the first position after a prefix replaces the head of the
suffix. -/
theorem ValueList.set_append_cons : ∀ (pre : ValueList) (x y : Value) (t : ValueList),
    (pre.append (.cons x t)).set pre.length y = pre.append (.cons y t)
  | .nil, _, _, _ => by simp [ValueList.append, ValueList.length, ValueList.set]
  | .cons a p, x, y, t => by
      simp [ValueList.append, ValueList.length, ValueList.set,
        ValueList.set_append_cons p x y t]

/-- The array element loop maps pointwise-validated elements: started on a
suffix with the already-processed prefix holding the validated values, it
finishes with every element replaced by its validated value (positions
whose value did not change are never spliced). -/
theorem validateElems_spec (elem : Schema) (tx ty : ValueList) (h : ElemsOk elem tx ty) :
    ∀ pre : ValueList,
      validateElems elem tx pre.length (pre.append tx) = .inr (pre.append ty) := by
  induction h with
  | nil =>
      intro pre
      simp [validateElems]
  | @cons x y tx ty hx hrest ih =>
      intro pre
      have hstep : validateElems elem (.cons x tx) pre.length (pre.append (.cons x tx))
          = validateElems elem tx (pre.length + 1)
              (if y = x then pre.append (.cons x tx)
               else (pre.append (.cons x tx)).set pre.length y) := by
        simp [validateElems, hx]
      rw [hstep]
      by_cases hxy : y = x
      · subst hxy
        rw [if_pos rfl]
        have := ih (pre.append (.cons y .nil))
        rw [ValueList.length_append_singleton, ValueList.append_cons_nil,
          ValueList.append_cons_nil] at this
        exact this
      · rw [if_neg hxy, ValueList.set_append_cons]
        have := ih (pre.append (.cons y .nil))
        rw [ValueList.length_append_singleton, ValueList.append_cons_nil,
          ValueList.append_cons_nil] at this
        exact this

/-- A spread update binds the written key to the written value. -/
theorem PropList.lookup_setFirst_self : ∀ (l : PropList) (k : String) (x : Value),
    (l.setFirst k x).lookup k = some x
  | .nil, k, x => by simp [PropList.setFirst, PropList.lookup]
  | .cons k2 v t, k, x => by
      by_cases h : k2 = k <;>
        simp [PropList.setFirst, PropList.lookup, h, PropList.lookup_setFirst_self t k x]

/-- A spread update leaves every other key's binding unchanged. -/
theorem PropList.lookup_setFirst_ne : ∀ (l : PropList) (k k2 : String) (x : Value),
    k ≠ k2 → (l.setFirst k x).lookup k2 = l.lookup k2
  | .nil, k, k2, x => fun h => by simp [PropList.setFirst, PropList.lookup, h]
  | .cons k3 v t, k, k2, x => fun h => by
      by_cases h3 : k3 = k
      · subst h3
        simp [PropList.setFirst, PropList.lookup, h]
      · simp [PropList.setFirst, PropList.lookup, h3,
          PropList.lookup_setFirst_ne t k k2 x h]

/-- Reading back the key just written by the spread update. -/
theorem getKey_setKey_self (cv : Value) (k : String) (x : Value) :
    getKey (setKey cv k x) k = x := by
  simp [setKey, getKey, PropList.lookup_setFirst_self]

/-- Reading any other key after a spread update of a plain object. -/
theorem getKey_setKey_ne (lo : PropList) (k k2 : String) (x : Value) (h : k ≠ k2) :
    getKey (setKey (.obj lo) k x) k2 = getKey (.obj lo) k2 := by
  simp [setKey, spreadProps, getKey, PropList.lookup_setFirst_ne lo k k2 x h]

/-- Reading back, on the plain-object form, the key written by setFirst. -/
theorem getKey_obj_setFirst_self (lo : PropList) (k : String) (x : Value) :
    getKey (.obj (lo.setFirst k x)) k = x := by
  simp [getKey, PropList.lookup_setFirst_self]

/-- Reading any other key, on the plain-object form, after setFirst. -/
theorem getKey_obj_setFirst_ne (lo : PropList) (k k2 : String) (x : Value) (h : k ≠ k2) :
    getKey (.obj (lo.setFirst k x)) k2 = getKey (.obj lo) k2 := by
  simp [getKey, PropList.lookup_setFirst_ne lo k k2 x h]

/-- The required pass of objectFunction on a plain-object aggregate: when
every required key is present and validates successfully with values given
by F, the pass returns a plain object in which every required key carries
its validated value, every other key is untouched, and which is the
original aggregate itself when no validated value changed. -/
theorem validateRequired_spec :
    ∀ (props : List (String × Bool × Schema)) (v : Value) (lo : PropList)
      (F : String → Value),
      (props.map fun p => p.1).Nodup →
      (∀ p ∈ props, p.2.1 = false → hasKey v p.1 = true) →
      (∀ p ∈ props, p.2.1 = false → validate p.2.2 (getKey v p.1) = .success (F p.1)) →
      (∀ p ∈ props, p.2.1 = false → getKey (.obj lo) p.1 = getKey v p.1) →
      ∃ lo2 : PropList, validateRequired props v (.obj lo) = .inr (.obj lo2) ∧
        (∀ k : String, (∀ p ∈ props, p.2.1 = false → p.1 ≠ k) →
            getKey (.obj lo2) k = getKey (.obj lo) k) ∧
        (∀ p ∈ props, p.2.1 = false → getKey (.obj lo2) p.1 = F p.1) ∧
        ((∀ p ∈ props, p.2.1 = false → F p.1 = getKey v p.1) → lo2 = lo) := by
  intro props
  induction props with
  | nil =>
      intro v lo F _ _ _ _
      exact ⟨lo, by simp [validateRequired], fun _ _ => rfl, by simp, fun _ => rfl⟩
  | cons hd rest ih =>
      obtain ⟨k, opt, s⟩ := hd
      intro v lo F hnd hpres hval hcv
      simp only [List.map_cons] at hnd
      obtain ⟨hknotin, hnd2⟩ := List.nodup_cons.mp hnd
      have hne : ∀ p ∈ rest, p.1 ≠ k := by
        intro p hp he
        exact hknotin (he ▸ List.mem_map_of_mem _ hp)
      cases opt with
      | true =>
          have hrun : validateRequired ((k, true, s) :: rest) v (.obj lo)
              = validateRequired rest v (.obj lo) := by
            simp [validateRequired]
          obtain ⟨lo2, h1, h2, h3, h4⟩ := ih v lo F hnd2
            (fun p hp => hpres p (List.mem_cons_of_mem _ hp))
            (fun p hp => hval p (List.mem_cons_of_mem _ hp))
            (fun p hp => hcv p (List.mem_cons_of_mem _ hp))
          refine ⟨lo2, by rw [hrun, h1], ?_, ?_, ?_⟩
          · intro k2 hk2
            exact h2 k2 (fun p hp => hk2 p (List.mem_cons_of_mem _ hp))
          · intro p hp hpr
            rcases List.mem_cons.mp hp with he | hp2
            · rw [he] at hpr
              simp at hpr
            · exact h3 p hp2 hpr
          · intro hall
            exact h4 (fun p hp => hall p (List.mem_cons_of_mem _ hp))
      | false =>
          have hk : hasKey v k = true := hpres (k, false, s) (List.mem_cons_self _ _) rfl
          have hv : validate s (getKey v k) = .success (F k) :=
            hval (k, false, s) (List.mem_cons_self _ _) rfl
          have hcvk : getKey (.obj lo) k = getKey v k :=
            hcv (k, false, s) (List.mem_cons_self _ _) rfl
          by_cases hchg : F k = getKey v k
          · have hrun : validateRequired ((k, false, s) :: rest) v (.obj lo)
                = validateRequired rest v (.obj lo) := by
              simp [validateRequired, hk, hv, hchg]
            obtain ⟨lo2, h1, h2, h3, h4⟩ := ih v lo F hnd2
              (fun p hp => hpres p (List.mem_cons_of_mem _ hp))
              (fun p hp => hval p (List.mem_cons_of_mem _ hp))
              (fun p hp => hcv p (List.mem_cons_of_mem _ hp))
            refine ⟨lo2, by rw [hrun, h1], ?_, ?_, ?_⟩
            · intro k2 hk2
              exact h2 k2 (fun p hp => hk2 p (List.mem_cons_of_mem _ hp))
            · intro p hp hpr
              rcases List.mem_cons.mp hp with he | hp2
              · rw [he]
                show getKey (.obj lo2) k = F k
                rw [h2 k (fun q hq hqr => hne q hq), hcvk, ← hchg]
              · exact h3 p hp2 hpr
            · intro hall
              exact h4 (fun p hp => hall p (List.mem_cons_of_mem _ hp))
          · have hrun : validateRequired ((k, false, s) :: rest) v (.obj lo)
                = validateRequired rest v (.obj (lo.setFirst k (F k))) := by
              simp [validateRequired, hk, hv, hchg, setKey, spreadProps]
            have hcv2 : ∀ p ∈ rest, p.2.1 = false →
                getKey (.obj (lo.setFirst k (F k))) p.1 = getKey v p.1 := by
              intro p hp hpr
              rw [getKey_obj_setFirst_ne lo k p.1 (F k) (fun he => hne p hp he.symm)]
              exact hcv p (List.mem_cons_of_mem _ hp) hpr
            obtain ⟨lo2, h1, h2, h3, h4⟩ := ih v (lo.setFirst k (F k)) F hnd2
              (fun p hp => hpres p (List.mem_cons_of_mem _ hp))
              (fun p hp => hval p (List.mem_cons_of_mem _ hp))
              hcv2
            refine ⟨lo2, by rw [hrun, h1], ?_, ?_, ?_⟩
            · intro k2 hk2
              have hkk2 : k ≠ k2 := hk2 (k, false, s) (List.mem_cons_self _ _) rfl
              rw [h2 k2 (fun p hp => hk2 p (List.mem_cons_of_mem _ hp))]
              exact getKey_obj_setFirst_ne lo k k2 (F k) hkk2
            · intro p hp hpr
              rcases List.mem_cons.mp hp with he | hp2
              · rw [he]
                show getKey (.obj lo2) k = F k
                rw [h2 k (fun q hq hqr => hne q hq)]
                exact getKey_obj_setFirst_self lo k (F k)
              · exact h3 p hp2 hpr
            · intro hall
              exact absurd (hall (k, false, s) (List.mem_cons_self _ _) rfl) hchg

/-- The optional pass of objectFunction on a plain-object aggregate: when
every optional key that is present validates successfully with values
given by F, the pass returns a plain object in which every present
optional key carries its validated value, every other key (including
absent optional keys) is untouched, and which is the original aggregate
itself when no validated value changed. -/
theorem validateOptional_spec :
    ∀ (props : List (String × Bool × Schema)) (v : Value) (lo : PropList)
      (F : String → Value),
      (props.map fun p => p.1).Nodup →
      (∀ p ∈ props, p.2.1 = true → hasKey v p.1 = true →
          validate p.2.2 (getKey v p.1) = .success (F p.1)) →
      (∀ p ∈ props, p.2.1 = true → hasKey v p.1 = true →
          getKey (.obj lo) p.1 = getKey v p.1) →
      ∃ lo2 : PropList, validateOptional props v (.obj lo) = .inr (.obj lo2) ∧
        (∀ k : String, (∀ p ∈ props, p.2.1 = true → hasKey v p.1 = true → p.1 ≠ k) →
            getKey (.obj lo2) k = getKey (.obj lo) k) ∧
        (∀ p ∈ props, p.2.1 = true → hasKey v p.1 = true →
            getKey (.obj lo2) p.1 = F p.1) ∧
        ((∀ p ∈ props, p.2.1 = true → hasKey v p.1 = true → F p.1 = getKey v p.1) →
            lo2 = lo) := by
  intro props
  induction props with
  | nil =>
      intro v lo F _ _ _
      exact ⟨lo, by simp [validateOptional], fun _ _ => rfl, by simp, fun _ => rfl⟩
  | cons hd rest ih =>
      obtain ⟨k, opt, s⟩ := hd
      intro v lo F hnd hval hcv
      simp only [List.map_cons] at hnd
      obtain ⟨hknotin, hnd2⟩ := List.nodup_cons.mp hnd
      have hne : ∀ p ∈ rest, p.1 ≠ k := by
        intro p hp he
        exact hknotin (he ▸ List.mem_map_of_mem _ hp)
      cases opt with
      | false =>
          have hrun : validateOptional ((k, false, s) :: rest) v (.obj lo)
              = validateOptional rest v (.obj lo) := by
            simp [validateOptional]
          obtain ⟨lo2, h1, h2, h3, h4⟩ := ih v lo F hnd2
            (fun p hp => hval p (List.mem_cons_of_mem _ hp))
            (fun p hp => hcv p (List.mem_cons_of_mem _ hp))
          refine ⟨lo2, by rw [hrun, h1], ?_, ?_, ?_⟩
          · intro k2 hk2
            exact h2 k2 (fun p hp => hk2 p (List.mem_cons_of_mem _ hp))
          · intro p hp hpr
            rcases List.mem_cons.mp hp with he | hp2
            · rw [he] at hpr
              simp at hpr
            · exact h3 p hp2 hpr
          · intro hall
            exact h4 (fun p hp => hall p (List.mem_cons_of_mem _ hp))
      | true =>
          cases hk : hasKey v k with
          | false =>
              have hrun : validateOptional ((k, true, s) :: rest) v (.obj lo)
                  = validateOptional rest v (.obj lo) := by
                simp [validateOptional, hk]
              obtain ⟨lo2, h1, h2, h3, h4⟩ := ih v lo F hnd2
                (fun p hp => hval p (List.mem_cons_of_mem _ hp))
                (fun p hp => hcv p (List.mem_cons_of_mem _ hp))
              refine ⟨lo2, by rw [hrun, h1], ?_, ?_, ?_⟩
              · intro k2 hk2
                exact h2 k2 (fun p hp => hk2 p (List.mem_cons_of_mem _ hp))
              · intro p hp hpr hpk
                rcases List.mem_cons.mp hp with he | hp2
                · rw [he] at hpk
                  rw [show ((k, true, s) : String × Bool × Schema).1 = k from rfl] at hpk
                  rw [hpk] at hk
                  cases hk
                · exact h3 p hp2 hpr hpk
              · intro hall
                exact h4 (fun p hp => hall p (List.mem_cons_of_mem _ hp))
          | true =>
              have hv : validate s (getKey v k) = .success (F k) :=
                hval (k, true, s) (List.mem_cons_self _ _) rfl hk
              have hcvk : getKey (.obj lo) k = getKey v k :=
                hcv (k, true, s) (List.mem_cons_self _ _) rfl hk
              by_cases hchg : F k = getKey v k
              · have hrun : validateOptional ((k, true, s) :: rest) v (.obj lo)
                    = validateOptional rest v (.obj lo) := by
                  simp [validateOptional, hk, hv, hchg]
                obtain ⟨lo2, h1, h2, h3, h4⟩ := ih v lo F hnd2
                  (fun p hp => hval p (List.mem_cons_of_mem _ hp))
                  (fun p hp => hcv p (List.mem_cons_of_mem _ hp))
                refine ⟨lo2, by rw [hrun, h1], ?_, ?_, ?_⟩
                · intro k2 hk2
                  exact h2 k2 (fun p hp => hk2 p (List.mem_cons_of_mem _ hp))
                · intro p hp hpr hpk
                  rcases List.mem_cons.mp hp with he | hp2
                  · rw [he]
                    show getKey (.obj lo2) k = F k
                    rw [h2 k (fun q hq hqr hqk => hne q hq), hcvk, ← hchg]
                  · exact h3 p hp2 hpr hpk
                · intro hall
                  exact h4 (fun p hp => hall p (List.mem_cons_of_mem _ hp))
              · have hrun : validateOptional ((k, true, s) :: rest) v (.obj lo)
                    = validateOptional rest v (.obj (lo.setFirst k (F k))) := by
                  simp [validateOptional, hk, hv, hchg, setKey, spreadProps]
                have hcv2 : ∀ p ∈ rest, p.2.1 = true → hasKey v p.1 = true →
                    getKey (.obj (lo.setFirst k (F k))) p.1 = getKey v p.1 := by
                  intro p hp hpr hpk
                  rw [getKey_obj_setFirst_ne lo k p.1 (F k) (fun he => hne p hp he.symm)]
                  exact hcv p (List.mem_cons_of_mem _ hp) hpr hpk
                obtain ⟨lo2, h1, h2, h3, h4⟩ := ih v (lo.setFirst k (F k)) F hnd2
                  (fun p hp => hval p (List.mem_cons_of_mem _ hp))
                  hcv2
                refine ⟨lo2, by rw [hrun, h1], ?_, ?_, ?_⟩
                · intro k2 hk2
                  have hkk2 : k ≠ k2 := hk2 (k, true, s) (List.mem_cons_self _ _) rfl hk
                  rw [h2 k2 (fun p hp => hk2 p (List.mem_cons_of_mem _ hp))]
                  exact getKey_obj_setFirst_ne lo k k2 (F k) hkk2
                · intro p hp hpr hpk
                  rcases List.mem_cons.mp hp with he | hp2
                  · rw [he]
                    show getKey (.obj lo2) k = F k
                    rw [h2 k (fun q hq hqr hqk => hne q hq)]
                    exact getKey_obj_setFirst_self lo k (F k)
                  · exact h3 p hp2 hpr hpk
                · intro hall
                  exact absurd (hall (k, true, s) (List.mem_cons_self _ _) rfl hk) hchg

/-- C4: copy-on-write of the composite combinators.  An Array_ validation
whose elements all succeed returns exactly the element-wise validated
list (so the untouched positions keep the original elements, and when no
element changed the result is the input list itself).  A properties
validation of a plain object whose declared present keys all succeed
returns a plain object carrying the validated value at every declared
present key, the original value at every other key, and equal to the input
object itself when no validated value changed. -/
theorem minimal_copy_aggregates :
    (∀ (elem : Schema) (xs ys : ValueList), ElemsOk elem xs ys →
        validate (.Array_ elem) (.arr xs) = .success (.arr ys)) ∧
      (∀ (props : List (String × Bool × Schema)) (l : PropList) (F : String → Value),
        (props.map fun p => p.1).Nodup →
        (∀ p ∈ props, p.2.1 = false → hasKey (Value.obj l) p.1 = true) →
        (∀ p ∈ props, hasKey (Value.obj l) p.1 = true →
            validate p.2.2 (getKey (Value.obj l) p.1) = .success (F p.1)) →
        ∃ w : Value, validate (.properties props) (.obj l) = .success w ∧
          (∀ p ∈ props, hasKey (Value.obj l) p.1 = true → getKey w p.1 = F p.1) ∧
          (∀ k : String, (∀ p ∈ props, p.1 ≠ k) → getKey w k = getKey (Value.obj l) k) ∧
          (∀ p ∈ props, hasKey (Value.obj l) p.1 = false →
              getKey w p.1 = getKey (Value.obj l) p.1) ∧
          ((∀ p ∈ props, hasKey (Value.obj l) p.1 = true →
              F p.1 = getKey (Value.obj l) p.1) → w = .obj l)) := by
  constructor
  · intro elem xs ys h
    have hspec := validateElems_spec elem xs ys h .nil
    simp only [ValueList.append, ValueList.length] at hspec
    simp [validate, hspec]
  · intro props l F hnd hreq hval
    have hinj := List.inj_on_of_nodup_map hnd
    obtain ⟨lo1, hr1, hr2, hr3, hr4⟩ := validateRequired_spec props (.obj l) l F hnd hreq
      (fun p hp hpr => hval p hp (hreq p hp hpr))
      (fun p _ _ => rfl)
    have hcv1 : ∀ p ∈ props, p.2.1 = true → hasKey (Value.obj l) p.1 = true →
        getKey (.obj lo1) p.1 = getKey (.obj l) p.1 := by
      intro p hp hpr _
      apply hr2 p.1
      intro q hq hqr he
      have hqe := hinj hq hp he
      rw [hqe, hpr] at hqr
      cases hqr
    obtain ⟨lo2, ho1, ho2, ho3, ho4⟩ := validateOptional_spec props (.obj l) lo1 F hnd
      (fun p hp _ hpk => hval p hp hpk) hcv1
    refine ⟨.obj lo2, ?_, ?_, ?_, ?_, ?_⟩
    · simp [validate, typeofValue, hr1, ho1]
    · intro p hp hpk
      cases hflag : p.2.1 with
      | false =>
          have h1 : getKey (.obj lo2) p.1 = getKey (.obj lo1) p.1 := by
            apply ho2 p.1
            intro q hq hqr _ he
            have hqe := hinj hq hp he
            rw [hqe, hflag] at hqr
            cases hqr
          rw [h1]
          exact hr3 p hp hflag
      | true =>
          exact ho3 p hp hflag hpk
    · intro k2 hk2
      rw [ho2 k2 (fun q hq _ _ => hk2 q hq), hr2 k2 (fun q hq _ => hk2 q hq)]
    · intro p hp hpk
      have h1 : getKey (.obj lo2) p.1 = getKey (.obj lo1) p.1 := by
        apply ho2 p.1
        intro q hq _ hqk he
        have hqe := hinj hq hp he
        rw [hqe] at hqk
        rw [hqk] at hpk
        cases hpk
      rw [h1]
      apply hr2 p.1
      intro q hq hqr he
      have hqe := hinj hq hp he
      rw [hqe] at hqr
      have hpresent := hreq p hp hqr
      rw [hpresent] at hpk
      cases hpk
    · intro hall
      have hlo1 : lo1 = l := hr4 (fun p hp hpr => hall p hp (hreq p hp hpr))
      have hlo2 : lo2 = lo1 := ho4 (fun p hp _ hpk => hall p hp hpk)
      rw [hlo2, hlo1]

theorem minimal_copy_aggregates_witness :
    validate (.Array_ (.convert fun _ => .ok (.num 2))) (.arr (.cons (.num 1) .nil))
        = .success (.arr (.cons (.num 2) .nil)) ∧
      ∃ w : Value,
        validate (.properties [("a", false, .convert fun _ => .ok (.num 2))])
            (.obj (.cons "a" (.num 1) .nil)) = .success w := by
  constructor
  · exact minimal_copy_aggregates.1 _ _ _
      (ElemsOk.cons (by simp [validate]) ElemsOk.nil)
  · obtain ⟨w, hw, _⟩ := minimal_copy_aggregates.2
      [("a", false, .convert fun _ => .ok (.num 2))]
      (.cons "a" (.num 1) .nil) (fun _ => .num 2)
      (by simp)
      (by intro p hp _; fin_cases hp; decide)
      (by intro p hp _; fin_cases hp; simp [validate, getKey, PropList.lookup])
    exact ⟨w, hw⟩
